import Mathlib

/-!
Verification development for the SuiteSpot RAG stack.

The Python sources embedded here are `src/comprehensive_rag.py` (document
sanitization, vector-index build-or-load, checkpointed knowledge-graph build,
fusion/rerank configuration), `src/mcp_rag_server.py` (server startup, file
watcher, reindex coroutine) and `src/rag_sentinel.py` (environment diagnostics).
Behaviour that lives in the external llama_index library (reciprocal-rank
fusion, LLM reranking, `refresh_ref`) is modelled from the specification and is
marked as such on each definition.
-/

namespace SuiteSpot

/-! ### Generic list utilities -/

/-- Chunking with explicit fuel: `chunksGo B n l` splits `l` into contiguous
pieces of length `B` (the last piece may be shorter), consuming one unit of
fuel per piece.  With `n = l.length` and `0 < B` the fuel never runs out. -/
def chunksGo {α : Type} (B : ℕ) : ℕ → List α → List (List α)
  | 0, _ => []
  | _, [] => []
  | n + 1, a :: t => ((a :: t).take B) :: chunksGo B n ((a :: t).drop B)

/-- Contiguous batches of size `≤ B`, in order, mirroring
`for i in range(0, total_nodes, CHECKPOINT_INTERVAL): batch = nodes[i : i + CHECKPOINT_INTERVAL]`
in `src/comprehensive_rag.py`. -/
def chunks {α : Type} (B : ℕ) (l : List α) : List (List α) :=
  chunksGo B l.length l

theorem chunksGo_flatten {α : Type} (B : ℕ) (hB : 0 < B) :
    ∀ (n : ℕ) (l : List α), l.length ≤ n → (chunksGo B n l).flatten = l := by
  intro n
  induction n with
  | zero =>
    intro l hl
    have : l = [] := List.eq_nil_of_length_eq_zero (Nat.le_zero.mp hl)
    subst this
    rfl
  | succ n ih =>
    intro l hl
    cases l with
    | nil => rfl
    | cons a t =>
      have hdrop : ((a :: t).drop B).length ≤ n := by
        simp only [List.length_drop, List.length_cons]
        simp only [List.length_cons] at hl
        omega
      calc (chunksGo B (n + 1) (a :: t)).flatten
          = (a :: t).take B ++ (chunksGo B n ((a :: t).drop B)).flatten := by
            simp [chunksGo]
        _ = (a :: t).take B ++ (a :: t).drop B := by rw [ih _ hdrop]
        _ = a :: t := List.take_append_drop B (a :: t)

theorem chunks_flatten {α : Type} (B : ℕ) (hB : 0 < B) (l : List α) :
    (chunks B l).flatten = l :=
  chunksGo_flatten B hB l.length l le_rfl

theorem chunksGo_length_le {α : Type} (B : ℕ) :
    ∀ (n : ℕ) (l : List α), ∀ c ∈ chunksGo B n l, c.length ≤ B := by
  intro n
  induction n with
  | zero => intro l c hc; simp [chunksGo] at hc
  | succ n ih =>
    intro l c hc
    cases l with
    | nil => simp [chunksGo] at hc
    | cons a t =>
      simp only [chunksGo, List.mem_cons] at hc
      rcases hc with hc | hc
      · subst hc
        simp
      · exact ih _ c hc

theorem chunks_length_le {α : Type} (B : ℕ) (l : List α) :
    ∀ c ∈ chunks B l, c.length ≤ B :=
  chunksGo_length_le B l.length l

theorem chunksGo_ne_nil {α : Type} (B : ℕ) (hB : 0 < B) :
    ∀ (n : ℕ) (l : List α), ∀ c ∈ chunksGo B n l, c ≠ [] := by
  intro n
  induction n with
  | zero => intro l c hc; simp [chunksGo] at hc
  | succ n ih =>
    intro l c hc
    cases l with
    | nil => simp [chunksGo] at hc
    | cons a t =>
      simp only [chunksGo, List.mem_cons] at hc
      rcases hc with hc | hc
      · subst hc
        simp [List.take_eq_nil_iff]
        omega
      · exact ih _ c hc

theorem chunks_ne_nil {α : Type} (B : ℕ) (hB : 0 < B) (l : List α) :
    ∀ c ∈ chunks B l, c ≠ [] :=
  chunksGo_ne_nil B hB l.length l

/-- Keep the first occurrence of each element, preserving first-seen order. -/
def dedupFirstAux {α : Type} [DecidableEq α] (seen : List α) : List α → List α
  | [] => []
  | a :: t => if a ∈ seen then dedupFirstAux seen t else a :: dedupFirstAux (a :: seen) t

def dedupFirst {α : Type} [DecidableEq α] (l : List α) : List α :=
  dedupFirstAux [] l

theorem mem_dedupFirstAux {α : Type} [DecidableEq α] :
    ∀ (l seen : List α) (x : α), x ∈ dedupFirstAux seen l ↔ x ∈ l ∧ x ∉ seen := by
  intro l
  induction l with
  | nil => intro seen x; simp [dedupFirstAux]
  | cons a t ih =>
    intro seen x
    by_cases ha : a ∈ seen
    · rw [show dedupFirstAux seen (a :: t) = dedupFirstAux seen t from by
        simp [dedupFirstAux, ha], ih]
      constructor
      · rintro ⟨hx, hxs⟩; exact ⟨List.mem_cons_of_mem a hx, hxs⟩
      · rintro ⟨hx, hxs⟩
        rcases List.mem_cons.mp hx with rfl | hx
        · exact absurd ha hxs
        · exact ⟨hx, hxs⟩
    · rw [show dedupFirstAux seen (a :: t) = a :: dedupFirstAux (a :: seen) t from by
        simp [dedupFirstAux, ha]]
      constructor
      · intro hx
        rcases List.mem_cons.mp hx with rfl | hx
        · exact ⟨List.mem_cons_self _ _, ha⟩
        · rcases (ih (a :: seen) x).mp hx with ⟨hxt, hxs⟩
          exact ⟨List.mem_cons_of_mem a hxt, fun hs => hxs (List.mem_cons_of_mem a hs)⟩
      · rintro ⟨hx, hxs⟩
        rcases List.mem_cons.mp hx with rfl | hx
        · exact List.mem_cons_self _ _
        · by_cases hxa : x = a
          · subst hxa; exact List.mem_cons_self _ _
          · refine List.mem_cons_of_mem a ((ih (a :: seen) x).mpr ⟨hx, ?_⟩)
            intro hs
            rcases List.mem_cons.mp hs with h | h
            · exact hxa h
            · exact hxs h

theorem mem_dedupFirst {α : Type} [DecidableEq α] (l : List α) (x : α) :
    x ∈ dedupFirst l ↔ x ∈ l := by
  simp [dedupFirst, mem_dedupFirstAux]

/-- Insertion into a list sorted by the boolean comparator `le`. -/
def insertSorted {α : Type} (le : α → α → Bool) (a : α) : List α → List α
  | [] => [a]
  | b :: t => if le a b then a :: b :: t else b :: insertSorted le a t

/-- Insertion sort by a boolean comparator (stable; used both for the fusion
ordering and for the rerank grading order). -/
def sortWith {α : Type} (le : α → α → Bool) : List α → List α
  | [] => []
  | a :: t => insertSorted le a (sortWith le t)

theorem insertSorted_perm {α : Type} (le : α → α → Bool) (a : α) :
    ∀ l : List α, (insertSorted le a l).Perm (a :: l) := by
  intro l
  induction l with
  | nil => simp [insertSorted]
  | cons b t ih =>
    by_cases h : le a b
    · simp [insertSorted, h]
    · simp only [insertSorted, if_neg h]
      exact (List.Perm.cons b ih).trans (List.Perm.swap a b t)

theorem sortWith_perm {α : Type} (le : α → α → Bool) :
    ∀ l : List α, (sortWith le l).Perm l := by
  intro l
  induction l with
  | nil => simp [sortWith]
  | cons a t ih =>
    exact (insertSorted_perm le a (sortWith le t)).trans (List.Perm.cons a ih)

theorem pairwise_insertSorted {α : Type} (le : α → α → Bool)
    (total : ∀ a b, le a b = true ∨ le b a = true)
    (trans : ∀ a b c, le a b = true → le b c = true → le a c = true) (a : α) :
    ∀ l : List α, l.Pairwise (fun x y => le x y = true) →
      (insertSorted le a l).Pairwise (fun x y => le x y = true) := by
  intro l
  induction l with
  | nil => intro _; simp [insertSorted]
  | cons b t ih =>
    intro hp
    rcases List.pairwise_cons.mp hp with ⟨hb, ht⟩
    by_cases h : le a b
    · simp only [insertSorted, if_pos h]
      refine List.pairwise_cons.mpr ⟨?_, hp⟩
      intro x hx
      rcases List.mem_cons.mp hx with rfl | hx
      · exact h
      · exact trans a b x h (hb x hx)
    · simp only [insertSorted, if_neg h]
      refine List.pairwise_cons.mpr ⟨?_, ih ht⟩
      intro x hx
      have hx' := (insertSorted_perm le a t).mem_iff.mp hx
      rcases List.mem_cons.mp hx' with rfl | hx'
      · rcases total x b with htot | htot
        · exact absurd htot (by simpa using h)
        · exact htot
      · exact hb x hx'

theorem pairwise_sortWith {α : Type} (le : α → α → Bool)
    (total : ∀ a b, le a b = true ∨ le b a = true)
    (trans : ∀ a b c, le a b = true → le b c = true → le a c = true) :
    ∀ l : List α, (sortWith le l).Pairwise (fun x y => le x y = true) := by
  intro l
  induction l with
  | nil => simp [sortWith]
  | cons a t ih => exact pairwise_insertSorted le total trans a (sortWith le t) ih

/-! ### Document sanitization (src/comprehensive_rag.py lines 60-74)

`clean_text = "".join(filter(lambda x: x.isprintable() or x in "\n\r\t", doc.text))`.
Python's `str.isprintable` is kept abstract as a character predicate. -/

/-- A character survives sanitization iff it is printable or one of
newline, carriage return, tab. -/
def allowedChar (printable : Char → Bool) (c : Char) : Bool :=
  printable c || c == '\n' || c == '\r' || c == '\t'

/-- The sanitization filter over a document's text. -/
def sanitizeText (printable : Char → Bool) (s : List Char) : List Char :=
  s.filter (allowedChar printable)

/-! ### Knowledge-graph build with checkpoints (src/comprehensive_rag.py lines 89-124)

The fresh build iterates `for i in range(0, total_nodes, CHECKPOINT_INTERVAL)`,
inserts the batch `nodes[i : i + CHECKPOINT_INTERVAL]` (triggering one
extraction per node) and then persists the storage context, printing
`Checkpoint saved at node {i + len(batch)}`.  We model the run as a trace of
events. -/

inductive BuildEvent (α : Type) where
  | extract (node : α)
  | persistCheckpoint (count : ℕ)
deriving DecidableEq

/-- Trace of a batched build starting with `done` nodes already extracted:
for each batch, one extraction event per node, then a single persist event
carrying the advanced checkpoint count. -/
def traceGo {α : Type} : ℕ → List (List α) → List (BuildEvent α)
  | _, [] => []
  | done, b :: bs =>
    (b.map BuildEvent.extract ++ [BuildEvent.persistCheckpoint (done + b.length)])
      ++ traceGo (done + b.length) bs

/-- The whole fresh-build trace over `nodes` with checkpoint interval `B`. -/
def kgFreshBuildTrace {α : Type} (B : ℕ) (nodes : List α) : List (BuildEvent α) :=
  traceGo 0 (chunks B nodes)

/-- Nodes sent to the extraction provider, in invocation order. -/
def extractedNodes {α : Type} (tr : List (BuildEvent α)) : List α :=
  tr.filterMap fun e =>
    match e with
    | BuildEvent.extract n => some n
    | BuildEvent.persistCheckpoint _ => none

/-- Checkpoint counts carried by the persist events, in order. -/
def persistedCounts {α : Type} (tr : List (BuildEvent α)) : List ℕ :=
  tr.filterMap fun e =>
    match e with
    | BuildEvent.extract _ => none
    | BuildEvent.persistCheckpoint c => some c

/-- Running cumulative sums: `cumSums s [n₁, n₂, …] = [s+n₁, s+n₁+n₂, …]`. -/
def cumSums (start : ℕ) : List ℕ → List ℕ
  | [] => []
  | n :: ns => (start + n) :: cumSums (start + n) ns

/-- Durability-before-progress checker: scanning the trace left to right with
`k` = number of extractions completed so far, every persisted checkpoint count
must equal exactly `k` — the checkpoint is never ahead of completed work and
each batch's extractions precede its persist. -/
def checkpointsValid {α : Type} : ℕ → List (BuildEvent α) → Bool
  | _, [] => true
  | k, BuildEvent.extract _ :: rest => checkpointsValid (k + 1) rest
  | k, BuildEvent.persistCheckpoint c :: rest => (c == k) && checkpointsValid k rest

theorem extractedNodes_append {α : Type} (t₁ t₂ : List (BuildEvent α)) :
    extractedNodes (t₁ ++ t₂) = extractedNodes t₁ ++ extractedNodes t₂ := by
  simp [extractedNodes]

theorem extractedNodes_map_extract {α : Type} (b : List α) :
    extractedNodes (b.map BuildEvent.extract) = b := by
  induction b with
  | nil => rfl
  | cons a b ih =>
    simp only [List.map_cons, extractedNodes, List.filterMap_cons] at ih ⊢
    rw [ih]

theorem extractedNodes_traceGo {α : Type} :
    ∀ (bs : List (List α)) (done : ℕ), extractedNodes (traceGo done bs) = bs.flatten := by
  intro bs
  induction bs with
  | nil => intro done; rfl
  | cons b bs ih =>
    intro done
    rw [traceGo, extractedNodes_append, extractedNodes_append, ih,
      extractedNodes_map_extract]
    simp [extractedNodes]

theorem persistedCounts_append {α : Type} (t₁ t₂ : List (BuildEvent α)) :
    persistedCounts (t₁ ++ t₂) = persistedCounts t₁ ++ persistedCounts t₂ := by
  simp [persistedCounts]

theorem persistedCounts_map_extract {α : Type} (b : List α) :
    persistedCounts (b.map BuildEvent.extract) = [] := by
  induction b with
  | nil => rfl
  | cons a b ih =>
    simp only [List.map_cons, persistedCounts, List.filterMap_cons] at ih ⊢
    exact ih

theorem persistedCounts_traceGo {α : Type} :
    ∀ (bs : List (List α)) (done : ℕ),
      persistedCounts (traceGo done bs) = cumSums done (bs.map List.length) := by
  intro bs
  induction bs with
  | nil => intro done; rfl
  | cons b bs ih =>
    intro done
    rw [traceGo, persistedCounts_append, persistedCounts_append, ih,
      persistedCounts_map_extract]
    rfl

theorem checkpointsValid_extracts {α : Type} (b : List α) :
    ∀ (k : ℕ) (rest : List (BuildEvent α)),
      checkpointsValid k (b.map BuildEvent.extract ++ rest)
        = checkpointsValid (k + b.length) rest := by
  induction b with
  | nil => intro k rest; simp
  | cons a b ih =>
    intro k rest
    simp only [List.map_cons, List.cons_append, checkpointsValid, List.length_cons]
    have h : k + 1 + b.length = k + (b.length + 1) := by omega
    calc checkpointsValid (k + 1) (List.map BuildEvent.extract b ++ rest)
        = checkpointsValid (k + 1 + b.length) rest := ih (k + 1) rest
      _ = checkpointsValid (k + (b.length + 1)) rest := by rw [h]

theorem checkpointsValid_traceGo {α : Type} :
    ∀ (bs : List (List α)) (k : ℕ), checkpointsValid k (traceGo k bs) = true := by
  intro bs
  induction bs with
  | nil => intro k; rfl
  | cons b bs ih =>
    intro k
    rw [traceGo, List.append_assoc, checkpointsValid_extracts]
    simp only [List.singleton_append, checkpointsValid, beq_self_eq_true, Bool.true_and]
    exact ih (k + b.length)

/-- Claim C5: for every build from empty over an ordered node sequence with
batch size `B > 0`, nodes are partitioned into contiguous non-empty batches of
at most `B`, processed in order; the extraction provider sees exactly the node
sequence; after each batch one persist event records the checkpoint advanced by
that batch's size, and every persisted checkpoint count equals exactly the
number of extractions completed before it (durability-before-progress). -/
theorem claim5_durability_before_progress {α : Type} (nodes : List α) (B : ℕ) (hB : 0 < B) :
    (chunks B nodes).flatten = nodes
    ∧ (∀ c ∈ chunks B nodes, c.length ≤ B ∧ c ≠ [])
    ∧ extractedNodes (kgFreshBuildTrace B nodes) = nodes
    ∧ persistedCounts (kgFreshBuildTrace B nodes) = cumSums 0 ((chunks B nodes).map List.length)
    ∧ checkpointsValid 0 (kgFreshBuildTrace B nodes) = true := by
  refine ⟨chunks_flatten B hB nodes, ?_, ?_, ?_, ?_⟩
  · intro c hc
    exact ⟨chunks_length_le B nodes c hc, chunks_ne_nil B hB nodes c hc⟩
  · rw [kgFreshBuildTrace, extractedNodes_traceGo, chunks_flatten B hB nodes]
  · rw [kgFreshBuildTrace, persistedCounts_traceGo]
  · rw [kgFreshBuildTrace, checkpointsValid_traceGo]

/-- Witness for C5 at the code's shape: three nodes, checkpoint interval 2. -/
theorem claim5_witness :
    extractedNodes (kgFreshBuildTrace 2 [10, 11, 12]) = [10, 11, 12]
    ∧ persistedCounts (kgFreshBuildTrace 2 [10, 11, 12]) = [2, 3]
    ∧ checkpointsValid 0 (kgFreshBuildTrace 2 [10, 11, 12]) = true := by
  have h := claim5_durability_before_progress [10, 11, 12] 2 (by decide)
  exact ⟨h.2.2.1, by decide, h.2.2.2.2⟩

/-! ### Restart behaviour of the knowledge-graph phase (src/comprehensive_rag.py lines 92-124)

On startup the code tries `load_index_from_storage(storage_context, index_id="kg")`.
If the load succeeds (a previously persisted snapshot exists, partial or not),
the batching loop is never entered: with `incremental=True` the code calls the
document-level `kg_index.refresh_ref(documents)`, with `incremental=False` it
does nothing.  Only when the load raises does the fresh batched build run,
always from index 0.  There is no stored processed-count offset anywhere. -/

/-- The checkpoint record the specification postulates (processed node count). -/
structure KGCheckpoint where
  processed : ℕ
deriving DecidableEq

structure KGPhaseResult where
  /-- Node indices extracted by the batching loop, in order. -/
  batchExtractCalls : List ℕ
  /-- Whether the document-level `refresh_ref` path was invoked instead. -/
  refreshInvoked : Bool
deriving DecidableEq

/-- The knowledge-graph phase of `build_comprehensive_stack`: snapshot present
means the load succeeds and the batching loop is skipped. -/
def kgPhase (snapshot : Option KGCheckpoint) (incremental : Bool) (nodeCount B : ℕ) :
    KGPhaseResult :=
  match snapshot with
  | some _ => { batchExtractCalls := [], refreshInvoked := incremental }
  | none => { batchExtractCalls := (chunks B (List.range nodeCount)).flatten,
              refreshInvoked := false }

/-- Claim C1 counterexample: with a persisted checkpoint recording 500 of 1200
nodes processed, restarting the builder (here with `incremental=False`, as
`rag_sentinel.py` line 140 and `evaluator.py` line 12 do) invokes the
extraction provider for no node at all — not for nodes 500..1199 as the claim
requires — and does not even take the refresh path. -/
theorem claim1_counterexample :
    (kgPhase (some ⟨500⟩) false 1200 500).batchExtractCalls ≠ List.range' 500 700
    ∧ (kgPhase (some ⟨500⟩) false 1200 500).refreshInvoked = false := by
  constructor
  · intro h
    have hlen := congrArg List.length h
    simp [kgPhase, List.length_range'] at hlen
  · rfl

/-- Claim C1 (amended): restarting the builder after a checkpoint does not
resume node-offset batching.  Whenever the persisted snapshot loads, the
batching loop is skipped entirely — the extraction provider is invoked for no
node by that loop, whatever processed count the checkpoint records; with
`incremental=True` a single document-level refresh call is made instead, with
`incremental=False` nothing is invoked.  Only a fresh build (no loadable
snapshot) runs the batching loop, and it then extracts exactly nodes
`0..n-1` in order. -/
theorem claim1_amended (cp : KGCheckpoint) (incremental : Bool) (n B : ℕ) (hB : 0 < B) :
    (kgPhase (some cp) incremental n B).batchExtractCalls = []
    ∧ (kgPhase (some cp) incremental n B).refreshInvoked = incremental
    ∧ (kgPhase none incremental n B).batchExtractCalls = List.range n := by
  refine ⟨rfl, rfl, ?_⟩
  simp only [kgPhase]
  exact chunks_flatten B hB (List.range n)

/-- Witness for C1 (amended) at a concrete restart: checkpoint 500, two nodes,
batch size 500. -/
theorem claim1_witness :
    (kgPhase (some ⟨500⟩) true 2 500).batchExtractCalls = []
    ∧ (kgPhase (some ⟨500⟩) true 2 500).refreshInvoked = true
    ∧ (kgPhase none true 2 500).batchExtractCalls = [0, 1] := by
  have h := claim1_amended ⟨500⟩ true 2 500 (by decide)
  exact ⟨h.1, h.2.1, by rw [h.2.2]; rfl⟩

/-! ### Vector index phase (src/comprehensive_rag.py lines 76-87)

`if not os.path.exists(STORAGE_DIR): … VectorStoreIndex(nodes) … persist …
else: … load_index_from_storage(storage_context, index_id="vector")`.
A node is written as its id paired with its content hash. -/

/-- Nodes whose content hash differs from the persisted vector index records
(or that are new). -/
def changedNodes (prior : List (String × ℕ)) (nodes : List (String × ℕ)) :
    List (String × ℕ) :=
  nodes.filter fun n =>
    match prior.lookup n.1 with
    | some h => h != n.2
    | none => true

/-- Nodes handed to the embedding provider by the vector phase: all of them on
a fresh build, none at all when the storage directory already exists (the
persisted index is loaded as-is and never refreshed). -/
def vectorPhaseEmbedCalls (persisted : Option (List (String × ℕ)))
    (nodes : List (String × ℕ)) : List (String × ℕ) :=
  match persisted with
  | some _ => []
  | none => nodes

/-- Claim C7 counterexample: with a prior persisted index over node `a` at
hash 0 and node `a`'s content hash now 1 (so `a` is a changed node), the
rebuild invokes the embedding provider for no node at all — not for the
changed node as the claim requires. -/
theorem claim7_counterexample :
    changedNodes [("a", 0)] [("a", 1)] = [("a", 1)]
    ∧ vectorPhaseEmbedCalls (some [("a", 0)]) [("a", 1)] ≠ changedNodes [("a", 0)] [("a", 1)] := by
  constructor
  · decide
  · decide

/-- Claim C7 (amended): on every rebuild over a prior persisted vector index
the vector phase loads the stored index and invokes the embedding provider for
no node whatsoever — in particular it never re-embeds a node with unchanged
content hash (that half of the claim survives, vacuously), but it does not
re-embed changed nodes either; only a fresh build (no persisted index) embeds
the nodes, and then all of them. -/
theorem claim7_amended (prior nodes : List (String × ℕ)) :
    vectorPhaseEmbedCalls (some prior) nodes = []
    ∧ ((vectorPhaseEmbedCalls (some prior) nodes).all
        fun n => (changedNodes prior nodes).contains n) = true
    ∧ vectorPhaseEmbedCalls none nodes = nodes :=
  ⟨rfl, rfl, rfl⟩

/-! ### Startup credential checks (src/mcp_rag_server.py lines 32-48, src/rag_sentinel.py lines 71-77) -/

/-- Presence of the three provider credentials in the environment. -/
structure ProviderEnv where
  openaiKey : Bool
  anthropicKey : Bool
  googleKey : Bool
deriving DecidableEq

/-- Modelled from the spec: constructing a provider client without its
credential raises (ProviderAuthError, fatal at startup).
`build_comprehensive_stack` constructs OpenAI embedding/extraction clients and
an Anthropic generation client (src/comprehensive_rag.py lines 45-48) and
never constructs a Google client, so its startup succeeds iff those two
credentials are present. -/
def buildStackStartupOk (e : ProviderEnv) : Bool :=
  e.openaiKey && e.anthropicKey

/-- `main` wraps the initial build in try/except and calls `sys.exit(1)` on
failure, before the MCP server starts accepting queries
(src/mcp_rag_server.py lines 36-42). -/
def serverAbortsBeforeServing (e : ProviderEnv) : Bool :=
  !(buildStackStartupOk e)

/-- The sentinel diagnostic script requires all three keys and exits on the
first missing one (src/rag_sentinel.py lines 71-77). -/
def sentinelAborts (e : ProviderEnv) : Bool :=
  !(e.openaiKey && e.anthropicKey && e.googleKey)

/-- Claim C8 counterexample: with the Google credential absent but the OpenAI
and Anthropic credentials present, the server startup does not abort — it goes
on to accept queries — although one of the three required credentials is
absent. -/
theorem claim8_counterexample :
    (ProviderEnv.mk true true false).googleKey = false
    ∧ serverAbortsBeforeServing (ProviderEnv.mk true true false) = false :=
  ⟨rfl, rfl⟩

/-- Claim C8 (amended): the query server's startup aborts before accepting any
query exactly when the OpenAI (embedding/extraction) or Anthropic (generation)
credential is absent; absence of the Google credential never aborts the
server.  Only the separate sentinel diagnostic script treats all three
credentials as required, aborting when any one is absent. -/
theorem claim8_amended (e : ProviderEnv) :
    serverAbortsBeforeServing e = (!e.openaiKey || !e.anthropicKey)
    ∧ sentinelAborts e = (!e.openaiKey || !e.anthropicKey || !e.googleKey) := by
  obtain ⟨o, a, g⟩ := e
  cases o <;> cases a <;> cases g <;> exact ⟨rfl, rfl⟩

/-! ### Reciprocal-rank fusion (configured in src/comprehensive_rag.py lines 128-139)

Modelled from the spec: the fusion itself runs inside the external llama_index
`QueryFusionRetriever` (`mode="reciprocal_rerank"`), which is not part of this
repository.  Per the spec, each retriever returns an ordered list of node ids
(rank 1 = most relevant), `fused_score(node) = Σ over retrievers R that
returned node of 1 / (rank_R(node) + c)` with `c = 60`, and the final ordering
is by descending fused score with ties broken by number of contributing
retrievers, then first-seen order across the fixed retriever priority
(vector, graph, lexical), then node id lexicographic order.  Scores are
computed as exact fractions over ℕ so the pipeline is executable; the ℚ-level
formula is recovered in the theorems. -/

/-- Contribution of one retriever to a node's fused score, as an exact
fraction (numerator, denominator): `1 / (rank + 60)` with 1-based rank when
the retriever returned the node, `0` otherwise. -/
def contribFrac (xs : List String) (x : String) : ℕ × ℕ :=
  match List.indexOf? x xs with
  | some i => (1, i + 61)
  | none => (0, 1)

/-- Exact fraction addition (no normalization needed for comparisons). -/
def addFrac (p q : ℕ × ℕ) : ℕ × ℕ :=
  (p.1 * q.2 + q.1 * p.2, p.2 * q.2)

/-- A node's fused score as an exact fraction over the three retrievers. -/
def scoreFrac (v g l : List String) (x : String) : ℕ × ℕ :=
  addFrac (addFrac (contribFrac v x) (contribFrac g x)) (contribFrac l x)

/-- Interpretation of a fraction in ℚ. -/
def fracToQ (p : ℕ × ℕ) : ℚ :=
  (p.1 : ℚ) / (p.2 : ℚ)

/-- The fused score of a node, in ℚ. -/
def fusedScore (v g l : List String) (x : String) : ℚ :=
  fracToQ (scoreFrac v g l x)

/-- The spec's scoring formula stated independently of the fraction pipeline:
`1 / (rank + 60)` with rank = 1-based position, summed per retriever. -/
def rrfSpecScore (xs : List String) (x : String) : ℚ :=
  match List.indexOf? x xs with
  | some i => 1 / ((((i : ℕ) : ℚ) + 1) + 60)
  | none => 0

/-- Number of retrievers that returned the node. -/
def numSources (v g l : List String) (x : String) : ℕ :=
  (if x ∈ v then 1 else 0) + (if x ∈ g then 1 else 0) + (if x ∈ l then 1 else 0)

/-- Position of the node's first occurrence scanning the retriever outputs in
the fixed priority vector, graph, lexical. -/
def firstSeen (v g l : List String) (x : String) : ℕ :=
  List.indexOf x (v ++ g ++ l)

/-- Candidate node ids in first-seen order across the priority
vector, graph, lexical. -/
def rrfCandidates (v g l : List String) : List String :=
  dedupFirst (v ++ g ++ l)

/-- The fusion comparator: descending fused score (compared by
cross-multiplication of the exact fractions), then more contributing sources
first, then first-seen order, then lexicographic node id. -/
def fuseLeB (v g l : List String) (x y : String) : Bool :=
  if (scoreFrac v g l x).1 * (scoreFrac v g l y).2
      = (scoreFrac v g l y).1 * (scoreFrac v g l x).2 then
    if numSources v g l x = numSources v g l y then
      if firstSeen v g l x = firstSeen v g l y then decide (x.data ≤ y.data)
      else decide (firstSeen v g l x < firstSeen v g l y)
    else decide (numSources v g l y < numSources v g l x)
  else decide ((scoreFrac v g l y).1 * (scoreFrac v g l x).2
      < (scoreFrac v g l x).1 * (scoreFrac v g l y).2)

/-- The fused, deterministically ordered result list. -/
def rrfFuse (v g l : List String) : List String :=
  sortWith (fuseLeB v g l) (rrfCandidates v g l)

/-- The claim's ordering relation, stated at the ℚ level: `x` is ranked no
later than `y`. -/
def fusedBefore (v g l : List String) (x y : String) : Prop :=
  fusedScore v g l y < fusedScore v g l x
  ∨ (fusedScore v g l x = fusedScore v g l y
     ∧ (numSources v g l y < numSources v g l x
        ∨ (numSources v g l x = numSources v g l y
           ∧ (firstSeen v g l x < firstSeen v g l y
              ∨ (firstSeen v g l x = firstSeen v g l y ∧ x.data ≤ y.data)))))

theorem contribFrac_den_pos (xs : List String) (x : String) :
    0 < (contribFrac xs x).2 := by
  unfold contribFrac
  cases List.indexOf? x xs <;> simp

theorem addFrac_den_pos {p q : ℕ × ℕ} (hp : 0 < p.2) (hq : 0 < q.2) :
    0 < (addFrac p q).2 :=
  Nat.mul_pos hp hq

theorem scoreFrac_den_pos (v g l : List String) (x : String) :
    0 < (scoreFrac v g l x).2 :=
  addFrac_den_pos (addFrac_den_pos (contribFrac_den_pos v x) (contribFrac_den_pos g x))
    (contribFrac_den_pos l x)

theorem fracToQ_lt_iff {p q : ℕ × ℕ} (hp : 0 < p.2) (hq : 0 < q.2) :
    fracToQ p < fracToQ q ↔ p.1 * q.2 < q.1 * p.2 := by
  unfold fracToQ
  rw [div_lt_div_iff₀ (by exact_mod_cast hp) (by exact_mod_cast hq)]
  exact_mod_cast Iff.rfl

theorem fracToQ_eq_iff {p q : ℕ × ℕ} (hp : 0 < p.2) (hq : 0 < q.2) :
    fracToQ p = fracToQ q ↔ p.1 * q.2 = q.1 * p.2 := by
  unfold fracToQ
  rw [div_eq_div_iff (by exact_mod_cast hp.ne') (by exact_mod_cast hq.ne')]
  exact_mod_cast Iff.rfl

theorem fuseLeB_iff (v g l : List String) (x y : String) :
    fuseLeB v g l x y = true ↔ fusedBefore v g l x y := by
  have hx := scoreFrac_den_pos v g l x
  have hy := scoreFrac_den_pos v g l y
  have hEq : fusedScore v g l x = fusedScore v g l y
      ↔ (scoreFrac v g l x).1 * (scoreFrac v g l y).2
        = (scoreFrac v g l y).1 * (scoreFrac v g l x).2 :=
    fracToQ_eq_iff hx hy
  have hLt : fusedScore v g l y < fusedScore v g l x
      ↔ (scoreFrac v g l y).1 * (scoreFrac v g l x).2
        < (scoreFrac v g l x).1 * (scoreFrac v g l y).2 :=
    fracToQ_lt_iff hy hx
  by_cases h1 : (scoreFrac v g l x).1 * (scoreFrac v g l y).2
      = (scoreFrac v g l y).1 * (scoreFrac v g l x).2
  · have hsc : fusedScore v g l x = fusedScore v g l y := hEq.mpr h1
    have hnlt : ¬ fusedScore v g l y < fusedScore v g l x := by
      rw [hsc]; exact lt_irrefl _
    by_cases h2 : numSources v g l x = numSources v g l y
    · by_cases h3 : firstSeen v g l x = firstSeen v g l y
      · rw [fuseLeB, if_pos h1, if_pos h2, if_pos h3]
        simp only [decide_eq_true_eq]
        unfold fusedBefore
        constructor
        · intro hd
          exact Or.inr ⟨hsc, Or.inr ⟨h2, Or.inr ⟨h3, hd⟩⟩⟩
        · rintro (hlt | ⟨-, hns | ⟨-, hfs | ⟨-, hd⟩⟩⟩)
          · exact absurd hlt hnlt
          · exact absurd hns (by omega)
          · exact absurd hfs (by omega)
          · exact hd
      · rw [fuseLeB, if_pos h1, if_pos h2, if_neg h3]
        simp only [decide_eq_true_eq]
        unfold fusedBefore
        constructor
        · intro hd
          exact Or.inr ⟨hsc, Or.inr ⟨h2, Or.inl hd⟩⟩
        · rintro (hlt | ⟨-, hns | ⟨-, hfs | ⟨hfs, -⟩⟩⟩)
          · exact absurd hlt hnlt
          · exact absurd hns (by omega)
          · exact hfs
          · exact absurd hfs h3
    · rw [fuseLeB, if_pos h1, if_neg h2]
      simp only [decide_eq_true_eq]
      unfold fusedBefore
      constructor
      · intro hd
        exact Or.inr ⟨hsc, Or.inl hd⟩
      · rintro (hlt | ⟨-, hns | ⟨hns, -⟩⟩)
        · exact absurd hlt hnlt
        · exact hns
        · exact absurd hns h2
  · rw [fuseLeB, if_neg h1]
    simp only [decide_eq_true_eq]
    unfold fusedBefore
    constructor
    · intro hd
      exact Or.inl (hLt.mpr hd)
    · rintro (hlt | ⟨he, -⟩)
      · exact hLt.mp hlt
      · exact absurd (hEq.mp he) h1

theorem fusedBefore_total (v g l : List String) (x y : String) :
    fusedBefore v g l x y ∨ fusedBefore v g l y x := by
  unfold fusedBefore
  rcases lt_trichotomy (fusedScore v g l x) (fusedScore v g l y) with h | h | h
  · exact Or.inr (Or.inl h)
  · rcases lt_trichotomy (numSources v g l x) (numSources v g l y) with h' | h' | h'
    · exact Or.inr (Or.inr ⟨h.symm, Or.inl h'⟩)
    · rcases lt_trichotomy (firstSeen v g l x) (firstSeen v g l y) with h'' | h'' | h''
      · exact Or.inl (Or.inr ⟨h, Or.inr ⟨h', Or.inl h''⟩⟩)
      · rcases le_total x.data y.data with h''' | h'''
        · exact Or.inl (Or.inr ⟨h, Or.inr ⟨h', Or.inr ⟨h'', h'''⟩⟩⟩)
        · exact Or.inr (Or.inr ⟨h.symm, Or.inr ⟨h'.symm, Or.inr ⟨h''.symm, h'''⟩⟩⟩)
      · exact Or.inr (Or.inr ⟨h.symm, Or.inr ⟨h'.symm, Or.inl h''⟩⟩)
    · exact Or.inl (Or.inr ⟨h, Or.inl h'⟩)
  · exact Or.inl (Or.inl h)

theorem fusedBefore_trans (v g l : List String) (x y z : String) :
    fusedBefore v g l x y → fusedBefore v g l y z → fusedBefore v g l x z := by
  unfold fusedBefore
  rintro (h1 | ⟨e1, h1⟩) (h2 | ⟨e2, h2⟩)
  · exact Or.inl (h2.trans h1)
  · exact Or.inl (e2 ▸ h1)
  · exact Or.inl (lt_of_lt_of_le h2 (le_of_eq e1.symm))
  · refine Or.inr ⟨e1.trans e2, ?_⟩
    rcases h1 with h1 | ⟨f1, h1⟩
    · rcases h2 with h2 | ⟨f2, h2⟩
      · exact Or.inl (h2.trans h1)
      · exact Or.inl (f2 ▸ h1)
    · rcases h2 with h2 | ⟨f2, h2⟩
      · exact Or.inl (lt_of_lt_of_le h2 (le_of_eq f1.symm))
      · refine Or.inr ⟨f1.trans f2, ?_⟩
        rcases h1 with h1 | ⟨g1, h1⟩
        · rcases h2 with h2 | ⟨g2, h2⟩
          · exact Or.inl (h1.trans h2)
          · exact Or.inl (g2 ▸ h1)
        · rcases h2 with h2 | ⟨g2, h2⟩
          · exact Or.inl (lt_of_le_of_lt (le_of_eq g1) h2)
          · exact Or.inr ⟨g1.trans g2, h1.trans h2⟩

theorem fracToQ_addFrac {p q : ℕ × ℕ} (hp : 0 < p.2) (hq : 0 < q.2) :
    fracToQ (addFrac p q) = fracToQ p + fracToQ q := by
  unfold fracToQ addFrac
  have hp' : ((p.2 : ℚ)) ≠ 0 := by exact_mod_cast hp.ne'
  have hq' : ((q.2 : ℚ)) ≠ 0 := by exact_mod_cast hq.ne'
  push_cast
  rw [div_add_div _ _ hp' hq']
  ring_nf

theorem fracToQ_contribFrac (xs : List String) (x : String) :
    fracToQ (contribFrac xs x) = rrfSpecScore xs x := by
  unfold fracToQ contribFrac rrfSpecScore
  cases h : List.indexOf? x xs with
  | none => simp
  | some i =>
    simp only []
    push_cast
    ring_nf

theorem fusedScore_eq_spec (v g l : List String) (x : String) :
    fusedScore v g l x = rrfSpecScore v x + rrfSpecScore g x + rrfSpecScore l x := by
  unfold fusedScore scoreFrac
  rw [fracToQ_addFrac (addFrac_den_pos (contribFrac_den_pos v x) (contribFrac_den_pos g x))
      (contribFrac_den_pos l x),
    fracToQ_addFrac (contribFrac_den_pos v x) (contribFrac_den_pos g x),
    fracToQ_contribFrac, fracToQ_contribFrac, fracToQ_contribFrac]

theorem fuseLeB_total (v g l : List String) (a b : String) :
    fuseLeB v g l a b = true ∨ fuseLeB v g l b a = true := by
  rcases fusedBefore_total v g l a b with h | h
  · exact Or.inl ((fuseLeB_iff v g l a b).mpr h)
  · exact Or.inr ((fuseLeB_iff v g l b a).mpr h)

theorem fuseLeB_trans (v g l : List String) (a b c : String) :
    fuseLeB v g l a b = true → fuseLeB v g l b c = true → fuseLeB v g l a c = true := by
  intro hab hbc
  exact (fuseLeB_iff v g l a c).mpr
    (fusedBefore_trans v g l a b c ((fuseLeB_iff v g l a b).mp hab)
      ((fuseLeB_iff v g l b c).mp hbc))

/-- Claim C2: reciprocal rank fusion.  The fused list contains exactly the
nodes some retriever returned; every node's fused score equals the sum over
the retrievers that returned it of `1 / (rank + 60)` with 1-based ranks
(absent retrievers contributing 0); the output is ordered by descending fused
score with ties broken by number of contributing retrievers, then first-seen
order in the priority vector, graph, lexical, then lexicographic node id (so
the ordering is a deterministic function of the retriever outputs); and on
vector = [a,b,c], graph = [b,a], lexical = [] the fused ordering is exactly
[a,b,c]. -/
theorem claim2_reciprocal_rank_fusion (v g l : List String) :
    (∀ x, x ∈ rrfFuse v g l ↔ (x ∈ v ∨ x ∈ g ∨ x ∈ l))
    ∧ (∀ x, fusedScore v g l x = rrfSpecScore v x + rrfSpecScore g x + rrfSpecScore l x)
    ∧ (rrfFuse v g l).Pairwise (fusedBefore v g l)
    ∧ rrfFuse ["a", "b", "c"] ["b", "a"] [] = ["a", "b", "c"] := by
  refine ⟨?_, fun x => fusedScore_eq_spec v g l x, ?_, by decide⟩
  · intro x
    unfold rrfFuse rrfCandidates
    rw [(sortWith_perm (fuseLeB v g l) _).mem_iff, mem_dedupFirst]
    simp [or_assoc]
  · exact (pairwise_sortWith (fuseLeB v g l) (fuseLeB_total v g l) (fuseLeB_trans v g l)
      (rrfCandidates v g l)).imp fun hab => (fuseLeB_iff v g l _ _).mp hab

/-- Witness for C2 at the spec's own example. -/
theorem claim2_witness :
    rrfFuse ["a", "b", "c"] ["b", "a"] [] = ["a", "b", "c"]
    ∧ ("a" ∈ rrfFuse ["a", "b", "c"] ["b", "a"] [] ↔
        ("a" ∈ ["a", "b", "c"] ∨ "a" ∈ ["b", "a"] ∨ "a" ∈ ([] : List String))) := by
  have h := claim2_reciprocal_rank_fusion ["a", "b", "c"] ["b", "a"] []
  exact ⟨h.2.2.2, h.1 "a"⟩

/-! ### Fusion failure policy

Modelled from the spec: the failure handling lives inside the external
llama_index retriever; per the spec, fusion proceeds over the retrievers that
succeeded (a failed retriever contributes nothing) and only when all three
fail does the call surface a retrieval-unavailable error.  A retriever's
outcome is `none` when it failed or timed out, `some ids` otherwise. -/

inductive RetrievalFailure where
  | unavailable
deriving DecidableEq

/-- `retrieve` over the three retriever outcomes. -/
def fusionRetrieve (v g l : Option (List String)) :
    Except RetrievalFailure (List String) :=
  match v, g, l with
  | none, none, none => Except.error RetrievalFailure.unavailable
  | _, _, _ => Except.ok (rrfFuse (v.getD []) (g.getD []) (l.getD []))

/-- Claim C3: if at least one retriever succeeds, the fusion retriever returns
the RRF result over the remaining retrievers' outputs (failed retrievers
contributing nothing); if all three fail, the call fails with a
retrieval-unavailable error instead of succeeding with an empty result. -/
theorem claim3_fusion_failure_policy (v g l : Option (List String)) :
    (v = none ∧ g = none ∧ l = none →
      fusionRetrieve v g l = Except.error RetrievalFailure.unavailable)
    ∧ (v.isSome ∨ g.isSome ∨ l.isSome →
      fusionRetrieve v g l = Except.ok (rrfFuse (v.getD []) (g.getD []) (l.getD []))) := by
  cases v <;> cases g <;> cases l <;>
    simp [fusionRetrieve]

/-- Witness for C3: lexical retriever failed (degraded fusion over vector and
graph only), and the all-failed case surfaces the error. -/
theorem claim3_witness :
    fusionRetrieve (some ["a", "b"]) (some ["b"]) none = Except.ok ["b", "a"]
    ∧ fusionRetrieve none none none = Except.error RetrievalFailure.unavailable := by
  have h := claim3_fusion_failure_policy (some ["a", "b"]) (some ["b"]) none
  have h0 := claim3_fusion_failure_policy (none : Option (List String)) none none
  refine ⟨?_, h0.1 ⟨rfl, rfl, rfl⟩⟩
  rw [h.2 (Or.inl rfl)]
  exact congrArg Except.ok (by decide)

/-! ### LLM reranker with fallback (src/comprehensive_rag.py lines 141-144)

Modelled from the spec: `LLMRerank(choice_batch_size=5, top_n=5, …)` grades the
fused candidates in fixed-size batches via a relevance-grading provider; a
batch's grading call either returns per-candidate scores or fails (`none`)
after retries.  Per the spec, graded candidates come first ordered by grading
score descending and the members of failed batches are appended in their
original fused order, with the caller told which candidates were not graded
(the engine additionally truncates to `top_n`, which preserves this order as a
prefix). -/

/-- Successfully graded candidates with their grading scores, in batch order. -/
def rerankGradedPart (cands : List String) (B : ℕ)
    (grade : List String → Option (List (String × ℚ))) : List (String × ℚ) :=
  (chunks B cands).flatMap fun b => (grade b).getD []

/-- Members of batches whose grading call failed, in original fused order. -/
def rerankUngraded (cands : List String) (B : ℕ)
    (grade : List String → Option (List (String × ℚ))) : List String :=
  (chunks B cands).flatMap fun b => if (grade b).isSome then [] else b

/-- Grading-score-descending comparator (stable sort keeps the pre-rerank
fused order within ties). -/
def gradeLeB (p q : String × ℚ) : Bool :=
  decide (q.2 ≤ p.2)

/-- The reranker's output: graded candidates first by grading score
descending, then the failed batches' members in fused order; the second
component reports the ungraded candidates to the caller. -/
def rerankWithFallback (cands : List String) (B : ℕ)
    (grade : List String → Option (List (String × ℚ))) :
    List String × List String :=
  ((sortWith gradeLeB (rerankGradedPart cands B grade)).map Prod.fst
      ++ rerankUngraded cands B grade,
   rerankUngraded cands B grade)

theorem selectNil_flatMap_sublist {α : Type} (p : List α → Bool) :
    ∀ bs : List (List α),
      (bs.flatMap fun b => if p b then [] else b).Sublist bs.flatten := by
  intro bs
  induction bs with
  | nil => simp
  | cons b bs ih =>
    by_cases hb : p b
    · simp only [List.flatMap_cons, if_pos hb, List.nil_append, List.flatten_cons]
      exact ih.trans (List.sublist_append_right b bs.flatten)
    · simp only [List.flatMap_cons, if_neg hb, List.flatten_cons]
      exact (List.append_sublist_append_left b).mpr ih

/-- Claim C4: grading-batch fallback.  The reranker's output is exactly the
successfully graded candidates, ordered by grading score descending, followed
by the failed batches' members; the appended members keep their original
fused order (they form a sublist of the fused candidate list); the caller is
told exactly which candidates were not graded, namely the members of the
batches whose grading call failed; and the reranker is a total function —
no hard failure. -/
theorem claim4_rerank_fallback (cands : List String) (B : ℕ) (hB : 0 < B)
    (grade : List String → Option (List (String × ℚ))) :
    (rerankWithFallback cands B grade).1
      = (sortWith gradeLeB (rerankGradedPart cands B grade)).map Prod.fst
        ++ (rerankWithFallback cands B grade).2
    ∧ (sortWith gradeLeB (rerankGradedPart cands B grade)).Pairwise
        (fun p q => q.2 ≤ p.2)
    ∧ (rerankWithFallback cands B grade).2.Sublist cands
    ∧ (∀ x, x ∈ (rerankWithFallback cands B grade).2 ↔
        ∃ b ∈ chunks B cands, grade b = none ∧ x ∈ b) := by
  refine ⟨rfl, ?_, ?_, ?_⟩
  · have htot : ∀ p q : String × ℚ, gradeLeB p q = true ∨ gradeLeB q p = true := by
      intro p q
      rcases le_total q.2 p.2 with h | h
      · exact Or.inl (decide_eq_true h)
      · exact Or.inr (decide_eq_true h)
    have htr : ∀ p q r : String × ℚ,
        gradeLeB p q = true → gradeLeB q r = true → gradeLeB p r = true := by
      intro p q r hpq hqr
      exact decide_eq_true ((of_decide_eq_true hqr).trans (of_decide_eq_true hpq))
    exact (pairwise_sortWith gradeLeB htot htr _).imp fun h => of_decide_eq_true h
  · have h := selectNil_flatMap_sublist (fun b => (grade b).isSome) (chunks B cands)
    rw [chunks_flatten B hB cands] at h
    exact h
  · intro x
    show x ∈ rerankUngraded cands B grade ↔ _
    unfold rerankUngraded
    rw [List.mem_flatMap]
    constructor
    · rintro ⟨b, hb, hx⟩
      by_cases hgb : (grade b).isSome
      · rw [if_pos hgb] at hx
        cases hx
      · rw [if_neg hgb] at hx
        exact ⟨b, hb, Option.not_isSome_iff_eq_none.mp hgb, hx⟩
    · rintro ⟨b, hb, hgb, hx⟩
      refine ⟨b, hb, ?_⟩
      rw [if_neg (by simp [hgb])]
      exact hx

/-- Witness for C4: four fused candidates, batch size 2, the second batch's
grading call fails; the graded pair is ordered by score descending and the
failed batch's members are appended in fused order and reported ungraded. -/
theorem claim4_witness :
    (rerankWithFallback ["c1", "c2", "c3", "c4"] 2
        (fun b => if b = ["c1", "c2"] then some [("c1", 1), ("c2", 3)] else none)).2.Sublist
      ["c1", "c2", "c3", "c4"]
    ∧ (rerankWithFallback ["c1", "c2", "c3", "c4"] 2
        (fun b => if b = ["c1", "c2"] then some [("c1", 1), ("c2", 3)] else none)).1
      = ["c2", "c1", "c3", "c4"]
    ∧ (rerankWithFallback ["c1", "c2", "c3", "c4"] 2
        (fun b => if b = ["c1", "c2"] then some [("c1", 1), ("c2", 3)] else none)).2
      = ["c3", "c4"] := by
  have h := claim4_rerank_fallback ["c1", "c2", "c3", "c4"] 2 (by decide)
    (fun b => if b = ["c1", "c2"] then some [("c1", 1), ("c2", 3)] else none)
  exact ⟨h.2.2.1, by decide, by decide⟩

/-! ### Incremental refresh of the knowledge graph (src/comprehensive_rag.py lines 96-99)

Modelled from the spec: `kg_index.refresh_ref(documents)` lives in the external
llama_index library.  Per the spec, the new node sequence is diffed by id
against the stored docstore using content hashes; only new or changed nodes
are re-extracted; triplets whose source node id no longer exists are removed;
the triplets of unaffected nodes are untouched.  The stored docstore is a map
from node id to content hash. -/

structure KNode where
  id : String
  hash : ℕ
deriving DecidableEq

structure Triplet where
  subj : String
  pred : String
  obj : String
  src : String
deriving DecidableEq

/-- A node is re-extracted iff it is new or its content hash changed. -/
def isNewOrChanged (store : String → Option ℕ) (n : KNode) : Bool :=
  match store n.id with
  | none => true
  | some h => decide (h ≠ n.hash)

/-- The refresh: returns the ids sent to the extraction provider (in order)
and the new triplet store. -/
def refreshRef (store : String → Option ℕ) (triplets : List Triplet)
    (newNodes : List KNode) (extract : KNode → List Triplet) :
    List String × List Triplet :=
  ((newNodes.filter (isNewOrChanged store)).map KNode.id,
   triplets.filter (fun tr =>
        decide (tr.src ∈ newNodes.map KNode.id)
          && !decide (tr.src ∈ (newNodes.filter (isNewOrChanged store)).map KNode.id))
     ++ (newNodes.filter (isNewOrChanged store)).flatMap extract)

/-- Claim C6: incremental refresh minimality.  Extraction is re-invoked
exactly for the nodes that are new or whose content hash changed (in
particular, a refresh whose diff is exactly one changed node invokes
extraction exactly once, for that node); every triplet in the refreshed store
has a live source node (orphaned triplets are removed); and the triplets of
every unaffected live node are left unchanged. -/
theorem claim6_incremental_refresh (store : String → Option ℕ) (triplets : List Triplet)
    (newNodes : List KNode) (extract : KNode → List Triplet)
    (hsrc : ∀ n, ∀ tr ∈ extract n, tr.src = n.id) :
    (refreshRef store triplets newNodes extract).1
      = (newNodes.filter (isNewOrChanged store)).map KNode.id
    ∧ (∀ tr ∈ (refreshRef store triplets newNodes extract).2,
        tr.src ∈ newNodes.map KNode.id)
    ∧ (∀ s ∈ newNodes.map KNode.id,
        (∀ n ∈ newNodes, n.id = s → isNewOrChanged store n = false) →
        (refreshRef store triplets newNodes extract).2.filter (fun tr => decide (tr.src = s))
          = triplets.filter (fun tr => decide (tr.src = s)))
    ∧ (∀ t : String,
        (∀ n ∈ newNodes, isNewOrChanged store n = decide (n.id = t)) →
        ((newNodes.filter fun n => decide (n.id = t)).map KNode.id = [t]) →
        (refreshRef store triplets newNodes extract).1 = [t]) := by
  refine ⟨rfl, ?_, ?_, ?_⟩
  · intro tr htr
    rcases List.mem_append.mp htr with htr | htr
    · have hq := (List.mem_filter.mp htr).2
      exact of_decide_eq_true ((Bool.and_eq_true _ _).mp hq).1
    · rcases List.mem_flatMap.mp htr with ⟨n, hn, hmem⟩
      have hn' : n ∈ newNodes := (List.mem_filter.mp hn).1
      rw [hsrc n tr hmem]
      exact List.mem_map_of_mem KNode.id hn'
  · intro s hs hnc
    have hs_not_changed : s ∉ (newNodes.filter (isNewOrChanged store)).map KNode.id := by
      intro hmem
      rcases List.mem_map.mp hmem with ⟨n, hn, hid⟩
      rcases List.mem_filter.mp hn with ⟨hn', hchg⟩
      rw [hnc n hn' hid] at hchg
      cases hchg
    show (List.filter _ (_ ++ _)) = _
    rw [List.filter_append]
    have hflat : ((newNodes.filter (isNewOrChanged store)).flatMap extract).filter
        (fun tr => decide (tr.src = s)) = [] := by
      refine List.filter_eq_nil_iff.mpr ?_
      intro tr htr
      rcases List.mem_flatMap.mp htr with ⟨n, hn, hmem⟩
      have hsrc' : tr.src = n.id := hsrc n tr hmem
      simp only [decide_eq_true_eq]
      intro hts
      apply hs_not_changed
      have hns : n.id = s := by rw [← hsrc']; exact hts
      exact hns ▸ List.mem_map_of_mem KNode.id hn
    have hkept : (triplets.filter (fun tr =>
        decide (tr.src ∈ newNodes.map KNode.id)
          && !decide (tr.src ∈ (newNodes.filter (isNewOrChanged store)).map KNode.id))).filter
          (fun tr => decide (tr.src = s))
        = triplets.filter (fun tr => decide (tr.src = s)) := by
      rw [List.filter_filter]
      apply List.filter_congr
      intro tr _
      by_cases hts : tr.src = s
      · have h1 : decide (tr.src = s) = true := decide_eq_true hts
        have h2 : decide (tr.src ∈ newNodes.map KNode.id) = true :=
          decide_eq_true (show tr.src ∈ newNodes.map KNode.id by rw [hts]; exact hs)
        have h3 : decide (tr.src ∈ (newNodes.filter (isNewOrChanged store)).map KNode.id)
            = false :=
          decide_eq_false fun hmem => hs_not_changed (hts ▸ hmem)
        rw [h1, h2, h3]
        rfl
      · have h1 : decide (tr.src = s) = false := decide_eq_false hts
        rw [h1]
        rfl
    rw [hflat, hkept, List.append_nil]
  · intro t h1 h2
    show (newNodes.filter (isNewOrChanged store)).map KNode.id = [t]
    rw [List.filter_congr fun n hn => h1 n hn]
    exact h2

/-- A concrete stored docstore: node `a` at hash 0, node `b` at hash 7. -/
def refreshStoreExample : String → Option ℕ := fun id =>
  if id = "a" then some 0 else if id = "b" then some 7 else none

def refreshTripletsExample : List Triplet :=
  [⟨"s1", "p1", "o1", "a"⟩, ⟨"s2", "p2", "o2", "b"⟩, ⟨"s3", "p3", "o3", "gone"⟩]

/-- New node sequence: `a` changed (hash 0 → 1), `b` unchanged, `gone` deleted. -/
def refreshNodesExample : List KNode := [⟨"a", 1⟩, ⟨"b", 7⟩]

def refreshExtractExample : KNode → List Triplet := fun n => [⟨"x", "y", "z", n.id⟩]

/-- Witness for C6: changing exactly node `a`'s content re-extracts exactly
`a`; node `b`'s triplets are byte-identical; the deleted node's triplet is
removed. -/
theorem claim6_witness :
    (refreshRef refreshStoreExample refreshTripletsExample refreshNodesExample
        refreshExtractExample).1 = ["a"]
    ∧ (refreshRef refreshStoreExample refreshTripletsExample refreshNodesExample
        refreshExtractExample).2.filter (fun tr => decide (tr.src = "b"))
      = refreshTripletsExample.filter (fun tr => decide (tr.src = "b"))
    ∧ (⟨"s3", "p3", "o3", "gone"⟩ : Triplet)
      ∉ (refreshRef refreshStoreExample refreshTripletsExample refreshNodesExample
          refreshExtractExample).2 := by
  have hsrc : ∀ n, ∀ tr ∈ refreshExtractExample n, tr.src = n.id := by
    intro n tr htr
    have h : tr = ⟨"x", "y", "z", n.id⟩ := by
      simpa [refreshExtractExample] using htr
    rw [h]
  have h := claim6_incremental_refresh refreshStoreExample refreshTripletsExample
    refreshNodesExample refreshExtractExample hsrc
  refine ⟨h.2.2.2 "a" (by decide) (by decide), h.2.2.1 "b" (by decide) (by decide), ?_⟩
  intro hmem
  have hlive := h.2.1 _ hmem
  simp [refreshNodesExample] at hlive

/-! ### Rebuild serialization (src/mcp_rag_server.py lines 18-30)

`DocsWatcher.on_modified` runs on the watchdog observer thread and only
enqueues the `reindex()` coroutine onto the single asyncio event loop via
`asyncio.run_coroutine_threadsafe(reindex(), loop)`.  The `reindex` coroutine
body contains no `await` (it synchronously calls
`build_comprehensive_stack(incremental=True)`), so once the loop starts it,
it runs to completion before the loop picks up anything else.  We model the
loop as executing the queued coroutines one after another, each rebuild
contributing a start event and a finish event. -/

inductive LoopAction where
  | startRebuild (req : ℕ)
  | finishRebuild (req : ℕ)
deriving DecidableEq

/-- The reindex coroutine for request `req`: await-free, hence atomic on the
event loop. -/
def reindexTask (req : ℕ) : List LoopAction :=
  [LoopAction.startRebuild req, LoopAction.finishRebuild req]

/-- The single event loop executes the queued coroutines one at a time, in
FIFO order. -/
def runLoop (tasks : List (List LoopAction)) : List LoopAction :=
  tasks.flatten

def isStart : LoopAction → Bool
  | LoopAction.startRebuild _ => true
  | LoopAction.finishRebuild _ => false

def isFinish : LoopAction → Bool
  | LoopAction.startRebuild _ => false
  | LoopAction.finishRebuild _ => true

def startCount (tr : List LoopAction) : ℕ :=
  tr.countP isStart

def finishCount (tr : List LoopAction) : ℕ :=
  tr.countP isFinish

/-- Number of rebuilds in flight after the first `n` events of a trace. -/
def rebuildsInFlight (tr : List LoopAction) (n : ℕ) : ℕ :=
  startCount (tr.take n) - finishCount (tr.take n)

theorem reindex_counts (reqs : List ℕ) :
    ∀ n, finishCount ((reqs.flatMap reindexTask).take n)
        ≤ startCount ((reqs.flatMap reindexTask).take n)
      ∧ startCount ((reqs.flatMap reindexTask).take n)
        ≤ finishCount ((reqs.flatMap reindexTask).take n) + 1 := by
  induction reqs with
  | nil => intro n; simp [startCount, finishCount]
  | cons r reqs ih =>
    intro n
    match n with
    | 0 => simp [startCount, finishCount]
    | 1 =>
      rw [List.flatMap_cons]
      simp [reindexTask, startCount, finishCount, isStart, isFinish, List.countP_cons]
    | n + 2 =>
      have h := ih n
      rw [List.flatMap_cons]
      simp only [reindexTask, List.cons_append, List.nil_append, List.take_succ_cons,
        startCount, finishCount, List.countP_cons, isStart, isFinish] at h ⊢
      omega

/-- Claim C9: rebuild serialization.  The event loop runs the queued rebuild
coroutines strictly one after another in arrival order (the trace is the
concatenation of the intact rebuild segments), and at every point of the
trace the number of rebuilds in flight — started but not finished — is at
most one: a rebuild request arriving while one runs is queued behind it,
and two rebuilds never run concurrently. -/
theorem claim9_rebuild_serialization (reqs : List ℕ) :
    runLoop (reqs.map reindexTask) = reqs.flatMap reindexTask
    ∧ (∀ n, finishCount ((runLoop (reqs.map reindexTask)).take n)
        ≤ startCount ((runLoop (reqs.map reindexTask)).take n))
    ∧ (∀ n, rebuildsInFlight (runLoop (reqs.map reindexTask)) n ≤ 1) := by
  have hrl : runLoop (reqs.map reindexTask) = reqs.flatMap reindexTask := by
    simp [runLoop, List.flatMap_def]
  refine ⟨hrl, ?_, ?_⟩
  · intro n
    rw [hrl]
    exact (reindex_counts reqs n).1
  · intro n
    rw [rebuildsInFlight, hrl]
    have h := reindex_counts reqs n
    omega

/-- Claim C10: sanitization invariant.  Every character surviving the
sanitization filter is printable or one of newline, carriage return, tab;
sanitizing an already-sanitized text returns it unchanged; and any node
content drawn from the sanitized text (the parser only chunks it) contains
only such characters. -/
theorem claim10_sanitization (printable : Char → Bool) (docText chunkText : List Char)
    (hchunk : chunkText.Sublist (sanitizeText printable docText)) :
    (sanitizeText printable docText).all (allowedChar printable) = true
    ∧ sanitizeText printable (sanitizeText printable docText)
      = sanitizeText printable docText
    ∧ chunkText.all (allowedChar printable) = true := by
  refine ⟨?_, ?_, ?_⟩
  · exact List.all_eq_true.mpr fun c hc => (List.mem_filter.mp hc).2
  · unfold sanitizeText
    rw [List.filter_filter]
    exact List.filter_congr fun c _ => Bool.and_self _
  · exact List.all_eq_true.mpr fun c hc =>
      (List.mem_filter.mp (hchunk.subset hc)).2

/-- Witness for C10: under a toy printable predicate accepting only `x`, the
text `x a \n` sanitizes to `x \n` (the disallowed `a` is dropped, the newline
kept), sanitization is idempotent there, and the chunk `[\n]` of the
sanitized text is fully allowed. -/
theorem claim10_witness :
    (sanitizeText (fun c => decide (c = 'x')) ['x', 'a', '\n']).all
      (allowedChar fun c => decide (c = 'x')) = true
    ∧ sanitizeText (fun c => decide (c = 'x'))
        (sanitizeText (fun c => decide (c = 'x')) ['x', 'a', '\n'])
      = sanitizeText (fun c => decide (c = 'x')) ['x', 'a', '\n']
    ∧ (['\n'] : List Char).all (allowedChar fun c => decide (c = 'x')) = true := by
  have h := claim10_sanitization (fun c => decide (c = 'x')) ['x', 'a', '\n'] ['\n']
    (by decide)
  exact ⟨h.1, h.2.1, h.2.2⟩

end SuiteSpot
